import Mathlib

/-!
Verification of the `serve_static` path-handling helpers of the salvo
repository (`extra/src/serve_static/mod.rs`).

Strings are modelled as `List Char`; the byte level (UTF-8, percent
encoding/decoding) is modelled with `List Nat`, each element a byte.

The three functions under scrutiny are:
* `format_url_path_safely` — lexical path normalization (split on `/` and
  `\`, drop empty and `.` segments, pop on `..`, rejoin with `/`);
* `encode_url_path` — per-segment percent-encoding with the CONTROLS set;
* `decode_url_path_safely` — percent-decoding followed by lossy UTF-8
  decoding.
-/

namespace ServeStatic

/-- One step of `Str::split`: prepend a char to the first piece. -/
def consHead (c : Char) : List (List Char) → List (List Char)
  | [] => [[c]]
  | p :: ps => (c :: p) :: ps

/-- `Str::split` on a set of separator characters: like Rust's
`str::split` with a `&[char]` pattern, it yields `n + 1` pieces for `n`
separator occurrences, keeping empty pieces. -/
def splitChars (seps : List Char) : List Char → List (List Char)
  | [] => [[]]
  | c :: rest =>
    if c ∈ seps then [] :: splitChars seps rest
    else consHead c (splitChars seps rest)

/-- `path.split(['/', '\\'])` from `format_url_path_safely`. -/
def splitSeps (s : List Char) : List (List Char) :=
  splitChars [ '/' , '\\' ] s

/-- `Vec::<&str>::join("/")`. -/
def joinSlash : List (List Char) → List Char
  | [] => []
  | [p] => p
  | p :: ps => p ++ '/' :: joinSlash ps

/-- The segment loop of `format_url_path_safely`: `used` is the
`used_parts` vector (`push` appends at the end, `pop` drops the last
element and is a no-op on an empty vector). -/
def formatLoop : List (List Char) → List (List Char) → List (List Char)
  | [], used => used
  | part :: rest, used =>
    if part = [] ∨ part = [ '.' ] then formatLoop rest used
    else if part = [ '.' , '.' ] then formatLoop rest used.dropLast
    else formatLoop rest (used ++ [part])

/-- `format_url_path_safely` from `serve_static/mod.rs`. -/
def format_url_path_safely (path : List Char) : List Char :=
  joinSlash (formatLoop (splitSeps path) [])

/-- A segment that `format_url_path_safely` can emit: nonempty, not a
dot or double-dot segment, and free of both separators. -/
def GoodSeg (p : List Char) : Prop :=
  p ≠ [] ∧ p ≠ [ '.' ] ∧ p ≠ [ '.' , '.' ] ∧ ∀ c ∈ p, c ≠ '/' ∧ c ≠ '\\'

/-! ### UTF-8 encoding (byte level) -/

/-- UTF-8 encoding of one Unicode scalar value, as a list of bytes. -/
def utf8EncodeChar (c : Char) : List Nat :=
  let n := c.toNat
  if n < 0x80 then [n]
  else if n < 0x800 then [0xC0 + n / 64, 0x80 + n % 64]
  else if n < 0x10000 then
    [0xE0 + n / 4096, 0x80 + n / 64 % 64, 0x80 + n % 64]
  else
    [0xF0 + n / 262144, 0x80 + n / 4096 % 64, 0x80 + n / 64 % 64, 0x80 + n % 64]

/-- UTF-8 encoding of a string, as a list of bytes. -/
def utf8Encode : List Char → List Nat
  | [] => []
  | c :: rest => utf8EncodeChar c ++ utf8Encode rest

/-! ### Percent-encoding (`encode_url_path`) -/

/-- Upper-case hexadecimal digit, as used by
`percent_encoding::percent_encode_byte`. -/
def pctHexDigit (n : Nat) : Char :=
  if n < 10 then Char.ofNat (48 + n) else Char.ofNat (55 + n)

/-- `percent_encoding::percent_encode_byte`: the three-character
`%XX` upper-case escape of one byte. -/
def percentEncodeByte (b : Nat) : List Char :=
  [ '%' , pctHexDigit (b / 16), pctHexDigit (b % 16)]

/-- Membership in `percent_encoding::CONTROLS`: the C0 control bytes
and DEL. -/
def isCtlByte (b : Nat) : Bool :=
  b < 0x20 || b == 0x7F

/-- `AsciiSet::should_percent_encode` for the CONTROLS set: non-ASCII
bytes are always percent-encoded, ASCII bytes exactly when they are in
the set. -/
def shouldPctEncode (b : Nat) : Bool :=
  !(b < 0x80 : Bool) || isCtlByte b

/-- The byte loop of `percent_encoding::utf8_percent_encode`: each byte
is emitted verbatim or as a `%XX` escape. -/
def utf8PercentEncodeBytes : List Nat → List Char
  | [] => []
  | b :: rest =>
    (if shouldPctEncode b then percentEncodeByte b else [Char.ofNat b])
      ++ utf8PercentEncodeBytes rest

/-- `utf8_percent_encode(s, CONTROLS).to_string()` on one segment. -/
def utf8PercentEncode (s : List Char) : List Char :=
  utf8PercentEncodeBytes (utf8Encode s)

/-- `encode_url_path` from `serve_static/mod.rs`: split on `/`,
percent-encode each segment with the CONTROLS set, rejoin with `/`. -/
def encode_url_path (path : List Char) : List Char :=
  joinSlash ((splitChars [ '/' ] path).map utf8PercentEncode)

/-- Concatenation of a list of strings (no separator). -/
def concatAll : List (List Char) → List Char
  | [] => []
  | x :: xs => x ++ concatAll xs

/-- Percent-encode every byte of a list. -/
def pctAll : List Nat → List Char
  | [] => []
  | b :: bs => percentEncodeByte b ++ pctAll bs

/-- The per-character effect of `encode_url_path` inside a segment: an
ASCII control character becomes its `%XX` escape, any other ASCII
character passes through verbatim, and a non-ASCII character has every
byte of its UTF-8 encoding percent-encoded. -/
def encChar (c : Char) : List Char :=
  if c.toNat < 0x80 then
    if isCtlByte c.toNat then percentEncodeByte c.toNat else [c]
  else pctAll (utf8EncodeChar c)

/-! ### Percent-decoding and lossy UTF-8 decoding
(`decode_url_path_safely`) -/

/-- Value of one hexadecimal digit byte, if it is one
(`percent_encoding`'s `after_percent_sign` lookahead). -/
def hexVal (b : Nat) : Option Nat :=
  if 48 ≤ b ∧ b ≤ 57 then some (b - 48)
  else if 65 ≤ b ∧ b ≤ 70 then some (b - 55)
  else if 97 ≤ b ∧ b ≤ 102 then some (b - 87)
  else none

/-- `percent_encoding::percent_decode`: a `%` followed by two hex
digits becomes the denoted byte; any other `%` is passed through
verbatim, never an error. -/
def percentDecode : List Nat → List Nat
  | [] => []
  | b :: h1 :: h2 :: rest2 =>
    if b = 37 then
      match hexVal h1, hexVal h2 with
      | some v1, some v2 => (16 * v1 + v2) :: percentDecode rest2
      | some _, none => 37 :: percentDecode (h1 :: h2 :: rest2)
      | none, _ => 37 :: percentDecode (h1 :: h2 :: rest2)
    else b :: percentDecode (h1 :: h2 :: rest2)
  | b :: rest => b :: percentDecode rest

/-- U+FFFD, the Unicode replacement character inserted by lossy UTF-8
decoding. -/
def replChar : Char := Char.ofNat 0xFFFD

/-- A UTF-8 continuation byte. -/
def isCont (b : Nat) : Bool := 0x80 ≤ b && b ≤ 0xBF

/-- Admissible second byte of a three-byte UTF-8 sequence with lead
byte `b` (narrowed for `0xE0` to exclude overlong forms and for `0xED`
to exclude surrogates). -/
def cont2ok3 (b b2 : Nat) : Bool :=
  if b == 0xE0 then 0xA0 ≤ b2 && b2 ≤ 0xBF
  else if b == 0xED then 0x80 ≤ b2 && b2 ≤ 0x9F
  else isCont b2

/-- Admissible second byte of a four-byte UTF-8 sequence with lead byte
`b` (narrowed for `0xF0` to exclude overlong forms and for `0xF4` to
stay below U+110000). -/
def cont2ok4 (b b2 : Nat) : Bool :=
  if b == 0xF0 then 0x90 ≤ b2 && b2 ≤ 0xBF
  else if b == 0xF4 then 0x80 ≤ b2 && b2 ≤ 0x8F
  else isCont b2

/-- `String::from_utf8_lossy` (which `decode_utf8_lossy` calls): decode
UTF-8, replacing each maximal invalid subsequence — and a truncated
final sequence — by one U+FFFD. -/
def utf8Lossy : List Nat → List Char
  | [] => []
  | b :: rest =>
    if b < 0x80 then Char.ofNat b :: utf8Lossy rest
    else if 0xC2 ≤ b ∧ b ≤ 0xDF then
      match rest with
      | [] => [replChar]
      | b2 :: rest2 =>
        if isCont b2 then
          Char.ofNat ((b - 0xC0) * 64 + (b2 - 0x80)) :: utf8Lossy rest2
        else replChar :: utf8Lossy (b2 :: rest2)
    else if 0xE0 ≤ b ∧ b ≤ 0xEF then
      match rest with
      | [] => [replChar]
      | b2 :: rest2 =>
        if cont2ok3 b b2 then
          match rest2 with
          | [] => [replChar]
          | b3 :: rest3 =>
            if isCont b3 then
              Char.ofNat ((b - 0xE0) * 4096 + (b2 - 0x80) * 64 + (b3 - 0x80))
                :: utf8Lossy rest3
            else replChar :: utf8Lossy (b3 :: rest3)
        else replChar :: utf8Lossy (b2 :: rest2)
    else if 0xF0 ≤ b ∧ b ≤ 0xF4 then
      match rest with
      | [] => [replChar]
      | b2 :: rest2 =>
        if cont2ok4 b b2 then
          match rest2 with
          | [] => [replChar]
          | b3 :: rest3 =>
            if isCont b3 then
              match rest3 with
              | [] => [replChar]
              | b4 :: rest4 =>
                if isCont b4 then
                  Char.ofNat ((b - 0xF0) * 262144 + (b2 - 0x80) * 4096
                      + (b3 - 0x80) * 64 + (b4 - 0x80))
                    :: utf8Lossy rest4
                else replChar :: utf8Lossy (b4 :: rest4)
            else replChar :: utf8Lossy (b3 :: rest3)
        else replChar :: utf8Lossy (b2 :: rest2)
    else replChar :: utf8Lossy rest

/-- `decode_url_path_safely` from `serve_static/mod.rs`:
`percent_decode_str(path).decode_utf8_lossy()`. -/
def decode_url_path_safely (path : List Char) : List Char :=
  utf8Lossy (percentDecode (utf8Encode path))

/-- The strict, error-returning UTF-8 decoder that
`decode_utf8_lossy` deliberately replaces: it succeeds exactly when the
byte list is valid UTF-8 — that is, when re-encoding the decoded text
reproduces the input — and fails otherwise. -/
def utf8DecodeStrict (bs : List Nat) : Option (List Char) :=
  if utf8Encode (utf8Lossy bs) = bs then some (utf8Lossy bs) else none

/-! ### Concrete sanity checks (from the repository's tests and the
spec's worked examples) -/

example : format_url_path_safely (String.toList "../../../etc/passwd")
    = String.toList "etc/passwd" := by decide

example : format_url_path_safely (String.toList "a/../a/b.txt")
    = String.toList "a/b.txt" := by decide

example : format_url_path_safely (String.toList "..\\girl\\love\\eat.txt")
    = String.toList "girl/love/eat.txt" := by decide

example : format_url_path_safely (String.toList "//a//.//b/..") = String.toList "a" := by
  decide

example : encode_url_path (String.toList "a?b #%") = String.toList "a?b #%" := by decide

example : encode_url_path (String.toList "a/é") = String.toList "a/%C3%A9" := by decide

example : encode_url_path (String.toList "x\ty") = String.toList "x%09y" := by decide

example : decode_url_path_safely (String.toList "%2e%2e%2Fa") = String.toList "../a" := by
  decide

example : decode_url_path_safely (String.toList "%C3%A9") = String.toList "é" := by decide

example : decode_url_path_safely (String.toList "%FF") = [replChar] := by decide

example : decode_url_path_safely (String.toList "%zz%4") = String.toList "%zz%4" := by
  decide

example : decode_url_path_safely (String.toList "%E2%82") = [replChar] := by decide

/-! ### Lemmas about splitting and joining -/

theorem splitChars_ne_nil (seps s : List Char) : splitChars seps s ≠ [] := by
  cases s with
  | nil => simp [splitChars]
  | cons c rest =>
    simp only [splitChars]
    split
    · simp
    · cases h : splitChars seps rest <;> simp [consHead]

theorem splitChars_sepFree (seps : List Char) :
    ∀ s, ∀ p ∈ splitChars seps s, ∀ c ∈ p, c ∉ seps := by
  intro s
  induction s with
  | nil =>
    intro p hp
    simp only [splitChars, List.mem_singleton] at hp
    subst hp
    simp
  | cons a rest ih =>
    intro p hp c hc
    simp only [splitChars] at hp
    by_cases ha : a ∈ seps
    · rw [if_pos ha] at hp
      rcases List.mem_cons.mp hp with rfl | hp
      · simp at hc
      · exact ih p hp c hc
    · rw [if_neg ha] at hp
      cases hsp : splitChars seps rest with
      | nil => exact absurd hsp (splitChars_ne_nil seps rest)
      | cons q qs =>
        rw [hsp] at hp ih
        simp only [consHead] at hp
        rcases List.mem_cons.mp hp with rfl | hp
        · rcases List.mem_cons.mp hc with rfl | hc
          · exact ha
          · exact ih q (List.mem_cons_self q qs) c hc
        · exact ih p (List.mem_cons_of_mem q hp) c hc

theorem splitChars_of_sepFree (seps : List Char) :
    ∀ p, (∀ c ∈ p, c ∉ seps) → splitChars seps p = [p] := by
  intro p
  induction p with
  | nil => intro _; rfl
  | cons a p' ih =>
    intro h
    have ha : a ∉ seps := h a (List.mem_cons_self _ _)
    simp only [splitChars, if_neg ha]
    rw [ih (fun c hc => h c (List.mem_cons_of_mem _ hc))]
    rfl

theorem splitChars_append_sep (seps : List Char) (c : Char) (hc : c ∈ seps) :
    ∀ u v, splitChars seps (u ++ c :: v) = splitChars seps u ++ splitChars seps v := by
  intro u
  induction u with
  | nil =>
    intro v
    simp only [List.nil_append, splitChars, if_pos hc]
    rfl
  | cons a u' ih =>
    intro v
    simp only [List.cons_append, splitChars, List.append_eq]
    by_cases ha : a ∈ seps
    · rw [if_pos ha, if_pos ha, ih]
      rfl
    · rw [if_neg ha, if_neg ha, ih]
      cases hsp : splitChars seps u' with
      | nil => exact absurd hsp (splitChars_ne_nil seps u')
      | cons q qs => simp [consHead]

theorem joinSlash_cons (p : List Char) (ps : List (List Char)) (h : ps ≠ []) :
    joinSlash (p :: ps) = p ++ '/' :: joinSlash ps := by
  cases ps with
  | nil => exact absurd rfl h
  | cons q qs => rfl

theorem mem_joinSlash :
    ∀ (L : List (List Char)) (c : Char), c ∈ joinSlash L → c = '/' ∨ ∃ p ∈ L, c ∈ p := by
  intro L
  induction L with
  | nil => intro c hc; simp [joinSlash] at hc
  | cons p ps ih =>
    intro c hc
    cases ps with
    | nil =>
      right
      exact ⟨p, by simp, by simpa [joinSlash] using hc⟩
    | cons q qs =>
      rw [joinSlash_cons p _ (by simp)] at hc
      rcases List.mem_append.mp hc with hc | hc
      · right; exact ⟨p, by simp, hc⟩
      · rcases List.mem_cons.mp hc with rfl | hc
        · left; rfl
        · rcases ih c hc with h | ⟨r, hr, hcr⟩
          · left; exact h
          · right; exact ⟨r, List.mem_cons_of_mem _ hr, hcr⟩

theorem splitSeps_joinSlash :
    ∀ L : List (List Char), L ≠ [] →
      (∀ p ∈ L, ∀ ch ∈ p, ch ≠ '/' ∧ ch ≠ '\\') →
      splitSeps (joinSlash L) = L := by
  intro L
  induction L with
  | nil => intro h _; exact absurd rfl h
  | cons p ps ih =>
    intro _ h
    have hp : ∀ ch ∈ p, ch ∉ ([ '/' , '\\' ] : List Char) := by
      intro ch hch
      obtain ⟨h1, h2⟩ := h p (List.mem_cons_self _ _) ch hch
      simp [h1, h2]
    cases ps with
    | nil =>
      show splitChars [ '/' , '\\' ] (joinSlash [p]) = [p]
      simp only [joinSlash]
      exact splitChars_of_sepFree _ p hp
    | cons q qs =>
      rw [joinSlash_cons p _ (by simp)]
      show splitChars [ '/' , '\\' ] (p ++ '/' :: joinSlash (q :: qs)) = _
      rw [splitChars_append_sep _ '/' (by simp) p _]
      rw [splitChars_of_sepFree _ p hp]
      rw [show splitChars [ '/' , '\\' ] (joinSlash (q :: qs)) = q :: qs from
        ih (by simp) (fun r hr => h r (List.mem_cons_of_mem _ hr))]
      rfl

/-! ### Lemmas about the normalization loop -/

theorem formatLoop_good :
    ∀ (parts used : List (List Char)),
      (∀ p ∈ parts, ∀ c ∈ p, c ≠ '/' ∧ c ≠ '\\') →
      (∀ p ∈ used, GoodSeg p) →
      ∀ p ∈ formatLoop parts used, GoodSeg p := by
  intro parts
  induction parts with
  | nil => intro used _ hused; simpa [formatLoop] using hused
  | cons part rest ih =>
    intro used hparts hused
    simp only [formatLoop]
    split_ifs with h1 h2
    · exact ih used (fun p hp => hparts p (List.mem_cons_of_mem _ hp)) hused
    · exact ih _ (fun p hp => hparts p (List.mem_cons_of_mem _ hp))
        (fun p hp => hused p (List.mem_of_mem_dropLast hp))
    · refine ih _ (fun p hp => hparts p (List.mem_cons_of_mem _ hp)) ?_
      intro p hp
      rcases List.mem_append.mp hp with hp | hp
      · exact hused p hp
      · have hpp : p = part := by simpa using hp
        subst hpp
        push_neg at h1
        exact ⟨h1.1, h1.2, h2, hparts p (List.mem_cons_self _ _)⟩

theorem formatLoop_append :
    ∀ xs ys used, formatLoop (xs ++ ys) used = formatLoop ys (formatLoop xs used) := by
  intro xs
  induction xs with
  | nil => intro ys used; simp [formatLoop]
  | cons x xs ih =>
    intro ys used
    simp only [List.cons_append, formatLoop]
    split_ifs <;> apply ih

theorem formatLoop_all_push :
    ∀ parts used, (∀ p ∈ parts, p ≠ [] ∧ p ≠ [ '.' ] ∧ p ≠ [ '.' , '.' ]) →
      formatLoop parts used = used ++ parts := by
  intro parts
  induction parts with
  | nil => intro used _; simp [formatLoop]
  | cons part rest ih =>
    intro used h
    have hp := h part (List.mem_cons_self _ _)
    simp only [formatLoop]
    rw [if_neg (by tauto), if_neg hp.2.2]
    rw [ih _ (fun p hq => h p (List.mem_cons_of_mem _ hq))]
    simp

theorem format_good (s : List Char) :
    ∀ p ∈ formatLoop (splitSeps s) [], GoodSeg p :=
  formatLoop_good (splitSeps s) []
    (fun p hp c hc => by
      have hmem := splitChars_sepFree [ '/' , '\\' ] s p hp c hc
      exact ⟨fun h => hmem (by simp [h]), fun h => hmem (by simp [h])⟩)
    (by intro p hp; simp at hp)

theorem joinSlash_head_good (L : List (List Char)) (hg : ∀ p ∈ L, GoodSeg p) :
    ∀ c, (joinSlash L).head? = some c → c ≠ '/' ∧ c ≠ '\\' := by
  intro c hc
  cases L with
  | nil => simp [joinSlash] at hc
  | cons p ps =>
    obtain ⟨hne, _, _, hsf⟩ := hg p (List.mem_cons_self _ _)
    cases p with
    | nil => exact absurd rfl hne
    | cons a p' =>
      have hhd : (joinSlash ((a :: p') :: ps)).head? = some a := by
        cases ps with
        | nil => simp [joinSlash]
        | cons q qs => rw [joinSlash_cons _ _ (by simp)]; simp
      rw [hhd] at hc
      injection hc with hc
      subst hc
      exact hsf _ (List.mem_cons_self _ _)

/-! ### Claim theorems about `format_url_path_safely` -/

/-- C1: for every raw input string (including empty segments, `.`/`..`
segments, mixed `/` and `\` separators, and percent-encoded
separators), normalizing the percent-decoded path via
`format_url_path_safely (decode_url_path_safely raw)` yields a relative
path that contains no `..` segment, contains no backslash, and does not
begin with a separator — so joining it under a root stays inside that
root. -/
theorem C1_normalized_path_containment : ∀ raw : List Char,
    (∀ seg ∈ splitSeps (format_url_path_safely (decode_url_path_safely raw)),
        seg ≠ [ '.' , '.' ]) ∧
    '\\' ∉ format_url_path_safely (decode_url_path_safely raw) ∧
    (∀ c, (format_url_path_safely (decode_url_path_safely raw)).head? = some c →
        c ≠ '/' ∧ c ≠ '\\') := by
  intro raw
  have hgood := format_good (decode_url_path_safely raw)
  have hout : format_url_path_safely (decode_url_path_safely raw)
      = joinSlash (formatLoop (splitSeps (decode_url_path_safely raw)) []) := rfl
  refine ⟨?_, ?_, ?_⟩
  · intro seg hseg
    rw [hout] at hseg
    by_cases hnil : formatLoop (splitSeps (decode_url_path_safely raw)) [] = []
    · rw [hnil] at hseg
      simp only [joinSlash, splitSeps, splitChars, List.mem_singleton] at hseg
      subst hseg
      simp
    · rw [splitSeps_joinSlash _ hnil (fun p hp => (hgood p hp).2.2.2)] at hseg
      exact (hgood seg hseg).2.2.1
  · rw [hout]
    intro hmem
    rcases mem_joinSlash _ '\\' hmem with h | ⟨p, hp, hcp⟩
    · exact absurd h (by decide)
    · exact ((hgood p hp).2.2.2 '\\' hcp).2 rfl
  · rw [hout]
    exact joinSlash_head_good _ hgood

/-- Witness for C1: a concrete traversal attempt with a percent-encoded
separator and a backslash normalizes to a safe relative path. -/
theorem C1_normalized_path_containment_witness :
    ('a' ≠ '/' ∧ 'a' ≠ '\\') ∧
    '\\' ∉ format_url_path_safely (decode_url_path_safely (String.toList "%2e%2e\\a")) :=
  ⟨(C1_normalized_path_containment (String.toList "%2e%2e\\a")).2.2 'a' (by decide),
   (C1_normalized_path_containment (String.toList "%2e%2e\\a")).2.1⟩

/-- C4: `format_url_path_safely "../../../etc/passwd" = "etc/passwd"` —
leading double-dot segments are absorbed at the root, never producing
an absolute or escaping path. -/
theorem C4_leading_dotdot_absorbed :
    format_url_path_safely (String.toList "../../../etc/passwd")
      = String.toList "etc/passwd" := by
  decide

/-- C5: a double-dot segment pops the previously accepted segment:
`format_url_path_safely "a/../a/b.txt" = format_url_path_safely
"a/b.txt" = "a/b.txt"`. -/
theorem C5_up_then_down_normalizes :
    format_url_path_safely (String.toList "a/../a/b.txt")
        = format_url_path_safely (String.toList "a/b.txt") ∧
    format_url_path_safely (String.toList "a/b.txt") = String.toList "a/b.txt" := by
  decide

theorem trivialLoop (parts : List (List Char))
    (h : ∀ p ∈ parts, p = [] ∨ p = [ '.' ] ∨ p = [ '.' , '.' ]) :
    formatLoop parts [] = [] := by
  induction parts with
  | nil => rfl
  | cons part rest ih =>
    have hrest : ∀ p ∈ rest, p = [] ∨ p = [ '.' ] ∨ p = [ '.' , '.' ] :=
      fun p hp => h p (List.mem_cons_of_mem _ hp)
    rcases h part (List.mem_cons_self _ _) with rfl | rfl | rfl <;>
      simpa [formatLoop] using ih hrest

/-- C6: every input all of whose `/`- or `\`-separated segments are
empty, `.`, or `..` normalizes to the empty string (the root); popping
past the root is a no-op, never an error. -/
theorem C6_trivial_segments_give_root (s : List Char)
    (h : ∀ p ∈ splitSeps s, p = [] ∨ p = [ '.' ] ∨ p = [ '.' , '.' ]) :
    format_url_path_safely s = [] := by
  show joinSlash (formatLoop (splitSeps s) []) = []
  rw [trivialLoop (splitSeps s) h]
  rfl

/-- Witness for C6 at a concrete input mixing `..`, `.`, empty segments
and both separators. -/
theorem C6_trivial_segments_give_root_witness :
    format_url_path_safely (String.toList "..\\.//../.") = [] :=
  C6_trivial_segments_give_root (String.toList "..\\.//../.") (by decide)

/-- C7: `format_url_path_safely` is invariant under replacing one
separator by the other at any position and under collapsing a redundant
adjacent separator, so `..` sequences are treated identically no matter
how they are delimited. -/
theorem C7_separator_equivalence :
    (∀ (u v : List Char) (c c' : Char), (c = '/' ∨ c = '\\') → (c' = '/' ∨ c' = '\\') →
        format_url_path_safely (u ++ c :: v) = format_url_path_safely (u ++ c' :: v)) ∧
    (∀ (u v : List Char) (c : Char), (c = '/' ∨ c = '\\') →
        format_url_path_safely (u ++ c :: c :: v) = format_url_path_safely (u ++ c :: v)) := by
  have hsep : ∀ c : Char, (c = '/' ∨ c = '\\') → c ∈ ([ '/' , '\\' ] : List Char) := by
    intro c hc
    rcases hc with rfl | rfl <;> simp
  constructor
  · intro u v c c' hc hc'
    show joinSlash (formatLoop (splitChars _ _) []) = joinSlash (formatLoop (splitChars _ _) [])
    rw [splitChars_append_sep _ c (hsep c hc) u v,
      splitChars_append_sep _ c' (hsep c' hc') u v]
  · intro u v c hc
    show joinSlash (formatLoop (splitChars _ _) []) = joinSlash (formatLoop (splitChars _ _) [])
    rw [splitChars_append_sep _ c (hsep c hc) u (c :: v),
      splitChars_append_sep _ c (hsep c hc) u v]
    have hcv : splitChars [ '/' , '\\' ] (c :: v) = [] :: splitChars [ '/' , '\\' ] v := by
      simp only [splitChars, if_pos (hsep c hc)]
    rw [hcv, formatLoop_append, formatLoop_append]
    have hskip : ∀ X, formatLoop ([] :: splitChars [ '/' , '\\' ] v) X
        = formatLoop (splitChars [ '/' , '\\' ] v) X := by
      intro X
      simp [formatLoop]
    rw [hskip]

/-- Witness for C7: collapsing the doubled slash in `a//b`. -/
theorem C7_separator_equivalence_witness :
    format_url_path_safely (String.toList "a" ++ '/' :: '/' :: String.toList "b")
      = format_url_path_safely (String.toList "a" ++ '/' :: String.toList "b") :=
  C7_separator_equivalence.2 (String.toList "a") (String.toList "b") '/' (Or.inl rfl)

/-- C8: a segment that begins with `.` but is neither `.` nor `..`
(such as `.hidden`) is pushed verbatim by the normalization loop of
`format_url_path_safely` — dot-file filtering is not done here. -/
theorem C8_dot_segment_pushed_verbatim
    (p : List Char) (rest used : List (List Char))
    (h1 : p.head? = some '.') (h2 : p ≠ [ '.' ]) (h3 : p ≠ [ '.' , '.' ]) :
    formatLoop (p :: rest) used = formatLoop rest (used ++ [p]) := by
  have hne : p ≠ [] := by
    intro h
    rw [h] at h1
    simp at h1
  simp only [formatLoop]
  rw [if_neg (by tauto), if_neg h3]

/-- Witness for C8 at the segment `.hidden`. -/
theorem C8_dot_segment_pushed_verbatim_witness :
    formatLoop [String.toList ".hidden"] [] = formatLoop [] ([] ++ [String.toList ".hidden"]) :=
  C8_dot_segment_pushed_verbatim (String.toList ".hidden") [] []
    (by decide) (by decide) (by decide)

/-- C9: `format_url_path_safely` is idempotent — its output contains no
empty, `.`, `..`, or backslash-separated segments, so normalizing again
changes nothing. -/
theorem C9_format_idempotent (s : List Char) :
    format_url_path_safely (format_url_path_safely s) = format_url_path_safely s := by
  have hgood := format_good s
  by_cases hnil : formatLoop (splitSeps s) [] = []
  · show format_url_path_safely (joinSlash (formatLoop (splitSeps s) []))
      = joinSlash (formatLoop (splitSeps s) [])
    rw [hnil]
    rfl
  · show format_url_path_safely (joinSlash (formatLoop (splitSeps s) []))
      = joinSlash (formatLoop (splitSeps s) [])
    show joinSlash (formatLoop (splitSeps (joinSlash (formatLoop (splitSeps s) []))) []) = _
    rw [splitSeps_joinSlash _ hnil (fun p hp => (hgood p hp).2.2.2)]
    rw [formatLoop_all_push _ []
      (fun p hp => ⟨(hgood p hp).1, (hgood p hp).2.1, (hgood p hp).2.2.1⟩)]
    rfl

/-! ### Lemmas about `encode_url_path` -/

theorem utf8PercentEncodeBytes_append (a b : List Nat) :
    utf8PercentEncodeBytes (a ++ b)
      = utf8PercentEncodeBytes a ++ utf8PercentEncodeBytes b := by
  induction a with
  | nil => rfl
  | cons x xs ih => simp [utf8PercentEncodeBytes, ih]

theorem utf8EncodeChar_ascii (c : Char) (h : c.toNat < 0x80) :
    utf8EncodeChar c = [c.toNat] := by
  simp [utf8EncodeChar, h]

theorem utf8EncodeChar_hi (c : Char) (h : 0x80 ≤ c.toNat) :
    ∀ b ∈ utf8EncodeChar c, 0x80 ≤ b := by
  intro b hb
  simp only [utf8EncodeChar] at hb
  split_ifs at hb with h1 h2 h3 <;> simp at hb <;> omega

theorem utf8PctBytes_all_hi :
    ∀ bs : List Nat, (∀ b ∈ bs, 0x80 ≤ b) → utf8PercentEncodeBytes bs = pctAll bs := by
  intro bs
  induction bs with
  | nil => intro _; rfl
  | cons b rest ih =>
    intro h
    have hb : shouldPctEncode b = true := by
      have := h b (List.mem_cons_self _ _)
      simp [shouldPctEncode]
      omega
    simp only [utf8PercentEncodeBytes, pctAll, hb, if_pos]
    rw [ih (fun x hx => h x (List.mem_cons_of_mem _ hx))]

theorem utf8PctBytes_encChar (c : Char) :
    utf8PercentEncodeBytes (utf8EncodeChar c) = encChar c := by
  by_cases h : c.toNat < 0x80
  · rw [utf8EncodeChar_ascii c h]
    have hs : shouldPctEncode c.toNat = isCtlByte c.toNat := by
      simp [shouldPctEncode, h]
    simp only [utf8PercentEncodeBytes, encChar, hs, if_pos h]
    by_cases hct : isCtlByte c.toNat
    · simp [hct]
    · simp [hct, Char.ofNat_toNat]
  · rw [encChar, if_neg h]
    exact utf8PctBytes_all_hi _ (utf8EncodeChar_hi c (by omega))

theorem joinSlash_append_head (a X : List Char) (ps : List (List Char)) :
    joinSlash ((a ++ X) :: ps) = a ++ joinSlash (X :: ps) := by
  cases ps with
  | nil => rfl
  | cons q qs =>
    rw [joinSlash_cons (a ++ X) (q :: qs) (by simp), joinSlash_cons X (q :: qs) (by simp)]
    simp

theorem encode_eq_concat : ∀ s : List Char, encode_url_path s = concatAll (s.map encChar) := by
  intro s
  induction s with
  | nil => rfl
  | cons c rest ih =>
    by_cases hc : c = '/'
    · subst hc
      show joinSlash ((splitChars [ '/' ] ('/' :: rest)).map utf8PercentEncode) = _
      have hsp : splitChars [ '/' ] ('/' :: rest) = [] :: splitChars [ '/' ] rest := by
        simp [splitChars]
      rw [hsp]
      simp only [List.map_cons]
      rw [show utf8PercentEncode [] = [] from rfl]
      rw [joinSlash_cons _ _ (by
        intro hmap
        exact splitChars_ne_nil [ '/' ] rest (List.map_eq_nil_iff.mp hmap))]
      simp only [List.nil_append, List.map_cons, concatAll]
      rw [show encChar '/' = [ '/' ] from by decide]
      rw [show joinSlash ((splitChars [ '/' ] rest).map utf8PercentEncode)
          = encode_url_path rest from rfl, ih]
      rfl
    · show joinSlash ((splitChars [ '/' ] (c :: rest)).map utf8PercentEncode) = _
      have hcs : c ∉ ([ '/' ] : List Char) := by simp [hc]
      cases hsp : splitChars [ '/' ] rest with
      | nil => exact absurd hsp (splitChars_ne_nil [ '/' ] rest)
      | cons p ps =>
        have hsc : splitChars [ '/' ] (c :: rest) = (c :: p) :: ps := by
          simp only [splitChars, if_neg hcs, hsp, consHead]
        rw [hsc]
        simp only [List.map_cons]
        have henc : utf8PercentEncode (c :: p) = encChar c ++ utf8PercentEncode p := by
          show utf8PercentEncodeBytes (utf8Encode (c :: p)) = _
          rw [show utf8Encode (c :: p) = utf8EncodeChar c ++ utf8Encode p from rfl]
          rw [utf8PercentEncodeBytes_append, utf8PctBytes_encChar]
          rfl
        rw [henc, joinSlash_append_head]
        have hrest : joinSlash (utf8PercentEncode p :: List.map utf8PercentEncode ps)
            = encode_url_path rest := by
          show _ = joinSlash ((splitChars [ '/' ] rest).map utf8PercentEncode)
          rw [hsp]
          rfl
        rw [hrest, ih]
        rfl

theorem concat_encChar_id :
    ∀ s : List Char, (∀ c ∈ s, c.toNat < 0x80 ∧ isCtlByte c.toNat = false) →
      concatAll (s.map encChar) = s := by
  intro s
  induction s with
  | nil => intro _; rfl
  | cons c rest ih =>
    intro h
    obtain ⟨h1, h2⟩ := h c (List.mem_cons_self _ _)
    have hcc : encChar c = [c] := by
      rw [encChar, if_pos h1, if_neg (by simp [h2])]
    simp only [List.map_cons, concatAll, hcc]
    rw [ih (fun d hd => h d (List.mem_cons_of_mem _ hd))]
    rfl

/-! ### Claim theorems about `encode_url_path` -/

/-- C3 counterexample: the URL-significant characters `?`, `#`, space
and `%` inside a segment pass through `encode_url_path` unencoded. -/
theorem C3_counterexample :
    encode_url_path (String.toList "a?b") = String.toList "a?b" ∧
    encode_url_path (String.toList "x#y z%") = String.toList "x#y z%" := by
  decide

/-- C3 (amended): `encode_url_path` splits on `/` and percent-encodes
within each segment exactly the ASCII control characters (the CONTROLS
set) and the bytes of non-ASCII characters; every other character —
including URL-significant ones such as `?`, `#`, `%` and space — passes
through unencoded, and `/` stays as the unencoded separator. -/
theorem C3_encode_controls_only (s : List Char) :
    encode_url_path s = concatAll (s.map encChar) :=
  encode_eq_concat s

/-- C10 counterexample: `"é"` contains no ASCII control character, yet
`encode_url_path` does not return it unchanged (non-ASCII bytes are
always percent-encoded). -/
theorem C10_counterexample :
    (String.toList "é").all (fun c => !(isCtlByte c.toNat)) = true ∧
    (encode_url_path (String.toList "é") == String.toList "é") = false := by
  decide

/-- C10 (amended): every path string consisting only of ASCII
characters and containing no ASCII control character is returned
unchanged by `encode_url_path` — space, `%`, `?`, `#`, `<`, `>` and `\`
all pass through unencoded. -/
theorem C10_ascii_noncontrol_unchanged (s : List Char)
    (h : ∀ c ∈ s, c.toNat < 0x80 ∧ isCtlByte c.toNat = false) :
    encode_url_path s = s := by
  rw [encode_eq_concat]
  exact concat_encChar_id s h

/-- Witness for C10 at a string full of URL-significant, non-control
ASCII characters. -/
theorem C10_ascii_noncontrol_unchanged_witness :
    encode_url_path (String.toList "a?b #%<>\\") = String.toList "a?b #%<>\\" :=
  C10_ascii_noncontrol_unchanged (String.toList "a?b #%<>\\") (by decide)

/-! ### Lossy UTF-8 decoding is exact on valid input -/

theorem char_toNat_ofNat (n : Nat) (h : Nat.isValidChar n) : (Char.ofNat n).toNat = n := by
  simp only [Char.ofNat, dif_pos h, Char.ofNatAux, Char.toNat]
  simp [UInt32.toNat]

theorem isCont_spec (b : Nat) (h : isCont b = true) : 0x80 ≤ b ∧ b ≤ 0xBF := by
  simp only [isCont, Bool.and_eq_true, decide_eq_true_eq] at h
  omega

theorem cont2ok3_spec (b b2 : Nat) (h : cont2ok3 b b2 = true) :
    0x80 ≤ b2 ∧ b2 ≤ 0xBF ∧ (b = 0xE0 → 0xA0 ≤ b2) ∧ (b = 0xED → b2 ≤ 0x9F) := by
  simp only [cont2ok3, beq_iff_eq] at h
  split_ifs at h with h1 h2 <;>
    simp only [isCont, Bool.and_eq_true, decide_eq_true_eq] at h <;>
    refine ⟨by omega, by omega, ?_, ?_⟩ <;> intro he <;> omega

theorem cont2ok4_spec (b b2 : Nat) (h : cont2ok4 b b2 = true) :
    0x80 ≤ b2 ∧ b2 ≤ 0xBF ∧ (b = 0xF0 → 0x90 ≤ b2) ∧ (b = 0xF4 → b2 ≤ 0x8F) := by
  simp only [cont2ok4, beq_iff_eq] at h
  split_ifs at h with h1 h2 <;>
    simp only [isCont, Bool.and_eq_true, decide_eq_true_eq] at h <;>
    refine ⟨by omega, by omega, ?_, ?_⟩ <;> intro he <;> omega

theorem encodeChar_ascii_byte (b : Nat) (h : b < 0x80) :
    utf8EncodeChar (Char.ofNat b) = [b] := by
  have hv : Nat.isValidChar b := Or.inl (by omega)
  simp only [utf8EncodeChar, char_toNat_ofNat b hv]
  rw [if_pos h]

theorem encodeChar_two (b b2 : Nat) (hb : 0xC2 ≤ b) (hb' : b ≤ 0xDF)
    (h2 : 0x80 ≤ b2) (h2' : b2 ≤ 0xBF) :
    utf8EncodeChar (Char.ofNat ((b - 0xC0) * 64 + (b2 - 0x80))) = [b, b2] := by
  have hv : Nat.isValidChar ((b - 0xC0) * 64 + (b2 - 0x80)) := Or.inl (by omega)
  simp only [utf8EncodeChar, char_toNat_ofNat _ hv]
  rw [if_neg (by omega), if_pos (by omega)]
  have e1 : 0xC0 + ((b - 0xC0) * 64 + (b2 - 0x80)) / 64 = b := by omega
  have e2 : 0x80 + ((b - 0xC0) * 64 + (b2 - 0x80)) % 64 = b2 := by omega
  rw [e1, e2]

theorem encodeChar_three (b b2 b3 : Nat)
    (hb : 0xE0 ≤ b) (hb' : b ≤ 0xEF)
    (h2 : 0x80 ≤ b2) (h2' : b2 ≤ 0xBF)
    (hE0 : b = 0xE0 → 0xA0 ≤ b2) (hED : b = 0xED → b2 ≤ 0x9F)
    (h3 : 0x80 ≤ b3) (h3' : b3 ≤ 0xBF) :
    utf8EncodeChar (Char.ofNat ((b - 0xE0) * 4096 + (b2 - 0x80) * 64 + (b3 - 0x80)))
      = [b, b2, b3] := by
  have hv : Nat.isValidChar ((b - 0xE0) * 4096 + (b2 - 0x80) * 64 + (b3 - 0x80)) := by
    rcases Nat.lt_or_ge b 0xEE with hlt | hge
    · left
      by_cases hbed : b = 0xED
      · have := hED hbed
        omega
      · omega
    · right
      constructor <;> omega
  simp only [utf8EncodeChar, char_toNat_ofNat _ hv]
  rw [if_neg (by omega), if_neg (by omega), if_pos (by omega)]
  have e1 : 0xE0 + ((b - 0xE0) * 4096 + (b2 - 0x80) * 64 + (b3 - 0x80)) / 4096 = b := by
    omega
  have e2 : 0x80 + ((b - 0xE0) * 4096 + (b2 - 0x80) * 64 + (b3 - 0x80)) / 64 % 64 = b2 := by
    omega
  have e3 : 0x80 + ((b - 0xE0) * 4096 + (b2 - 0x80) * 64 + (b3 - 0x80)) % 64 = b3 := by
    omega
  rw [e1, e2, e3]

theorem encodeChar_four (b b2 b3 b4 : Nat)
    (hb : 0xF0 ≤ b) (hb' : b ≤ 0xF4)
    (h2 : 0x80 ≤ b2) (h2' : b2 ≤ 0xBF)
    (hF0 : b = 0xF0 → 0x90 ≤ b2) (hF4 : b = 0xF4 → b2 ≤ 0x8F)
    (h3 : 0x80 ≤ b3) (h3' : b3 ≤ 0xBF) (h4 : 0x80 ≤ b4) (h4' : b4 ≤ 0xBF) :
    utf8EncodeChar (Char.ofNat
        ((b - 0xF0) * 262144 + (b2 - 0x80) * 4096 + (b3 - 0x80) * 64 + (b4 - 0x80)))
      = [b, b2, b3, b4] := by
  have hv : Nat.isValidChar
      ((b - 0xF0) * 262144 + (b2 - 0x80) * 4096 + (b3 - 0x80) * 64 + (b4 - 0x80)) := by
    right
    constructor
    · omega
    · by_cases hbf : b = 0xF4
      · have := hF4 hbf
        omega
      · omega
  simp only [utf8EncodeChar, char_toNat_ofNat _ hv]
  rw [if_neg (by omega), if_neg (by omega), if_neg (by
    by_cases hbf : b = 0xF0
    · have := hF0 hbf
      omega
    · omega)]
  have e1 : 0xF0 + ((b - 0xF0) * 262144 + (b2 - 0x80) * 4096 + (b3 - 0x80) * 64
      + (b4 - 0x80)) / 262144 = b := by omega
  have e2 : 0x80 + ((b - 0xF0) * 262144 + (b2 - 0x80) * 4096 + (b3 - 0x80) * 64
      + (b4 - 0x80)) / 4096 % 64 = b2 := by omega
  have e3 : 0x80 + ((b - 0xF0) * 262144 + (b2 - 0x80) * 4096 + (b3 - 0x80) * 64
      + (b4 - 0x80)) / 64 % 64 = b3 := by omega
  have e4 : 0x80 + ((b - 0xF0) * 262144 + (b2 - 0x80) * 4096 + (b3 - 0x80) * 64
      + (b4 - 0x80)) % 64 = b4 := by omega
  rw [e1, e2, e3, e4]

/-- When lossy decoding performed no replacement, it inverted the UTF-8
encoding exactly. -/
theorem lossy_exact :
    ∀ bs : List Nat, replChar ∉ utf8Lossy bs → utf8Encode (utf8Lossy bs) = bs := by
  intro bs
  induction bs using utf8Lossy.induct with
  | case1 => intro _; rfl
  | case2 b rest h ih =>
    intro hn
    have hl : utf8Lossy (b :: rest) = Char.ofNat b :: utf8Lossy rest := by
      rw [utf8Lossy.eq_def]
      simp [h]
    rw [hl] at hn ⊢
    show utf8EncodeChar (Char.ofNat b) ++ utf8Encode (utf8Lossy rest) = b :: rest
    rw [ih (fun hm => hn (List.mem_cons_of_mem _ hm)), encodeChar_ascii_byte b h]
    rfl
  | case3 b h1 h2 =>
    intro hn
    exact absurd (by rw [utf8Lossy.eq_def]; simp [h1, h2]) hn
  | case4 b h1 h2 b2 rest2 h3 ih =>
    intro hn
    have hl : utf8Lossy (b :: b2 :: rest2)
        = Char.ofNat ((b - 0xC0) * 64 + (b2 - 0x80)) :: utf8Lossy rest2 := by
      rw [utf8Lossy.eq_def]
      simp [h1, h2, h3]
    rw [hl] at hn ⊢
    obtain ⟨hc1, hc2⟩ := isCont_spec b2 h3
    show utf8EncodeChar (Char.ofNat ((b - 0xC0) * 64 + (b2 - 0x80)))
        ++ utf8Encode (utf8Lossy rest2) = b :: b2 :: rest2
    rw [ih (fun hm => hn (List.mem_cons_of_mem _ hm)),
      encodeChar_two b b2 h2.1 h2.2 hc1 hc2]
    rfl
  | case5 b h1 h2 b2 rest2 h3 ih =>
    intro hn
    exact absurd (by rw [utf8Lossy.eq_def]; simp [h1, h2, h3]) hn
  | case6 b h1 h2 h3 =>
    intro hn
    exact absurd (by rw [utf8Lossy.eq_def]; simp [h1, h2, h3]) hn
  | case7 b h1 h2 h3 b2 h4 =>
    intro hn
    exact absurd (by rw [utf8Lossy.eq_def]; simp [h1, h2, h3, h4]) hn
  | case8 b h1 h2 h3 b2 h4 b3 rest3 h5 ih =>
    intro hn
    have hl : utf8Lossy (b :: b2 :: b3 :: rest3)
        = Char.ofNat ((b - 0xE0) * 4096 + (b2 - 0x80) * 64 + (b3 - 0x80))
          :: utf8Lossy rest3 := by
      rw [utf8Lossy.eq_def]
      simp [h1, h2, h3, h4, h5]
    rw [hl] at hn ⊢
    obtain ⟨hc1, hc2, hcE0, hcED⟩ := cont2ok3_spec b b2 h4
    obtain ⟨hd1, hd2⟩ := isCont_spec b3 h5
    show utf8EncodeChar (Char.ofNat ((b - 0xE0) * 4096 + (b2 - 0x80) * 64 + (b3 - 0x80)))
        ++ utf8Encode (utf8Lossy rest3) = b :: b2 :: b3 :: rest3
    rw [ih (fun hm => hn (List.mem_cons_of_mem _ hm)),
      encodeChar_three b b2 b3 h3.1 h3.2 hc1 hc2 hcE0 hcED hd1 hd2]
    rfl
  | case9 b h1 h2 h3 b2 h4 b3 rest3 h5 ih =>
    intro hn
    exact absurd (by rw [utf8Lossy.eq_def]; simp [h1, h2, h3, h4, h5]) hn
  | case10 b h1 h2 h3 b2 rest2 h4 ih =>
    intro hn
    exact absurd (by rw [utf8Lossy.eq_def]; simp [h1, h2, h3, h4]) hn
  | case11 b h1 h2 h3 h4 =>
    intro hn
    exact absurd (by rw [utf8Lossy.eq_def]; simp [h1, h2, h3, h4]) hn
  | case12 b h1 h2 h3 h4 b2 h5 =>
    intro hn
    exact absurd (by rw [utf8Lossy.eq_def]; simp [h1, h2, h3, h4, h5]) hn
  | case13 b h1 h2 h3 h4 b2 h5 b3 h6 =>
    intro hn
    exact absurd (by rw [utf8Lossy.eq_def]; simp [h1, h2, h3, h4, h5, h6]) hn
  | case14 b h1 h2 h3 h4 b2 h5 b3 h6 b4 rest4 h7 ih =>
    intro hn
    have hl : utf8Lossy (b :: b2 :: b3 :: b4 :: rest4)
        = Char.ofNat ((b - 0xF0) * 262144 + (b2 - 0x80) * 4096 + (b3 - 0x80) * 64
            + (b4 - 0x80)) :: utf8Lossy rest4 := by
      rw [utf8Lossy.eq_def]
      simp [h1, h2, h3, h4, h5, h6, h7]
    rw [hl] at hn ⊢
    obtain ⟨hc1, hc2, hcF0, hcF4⟩ := cont2ok4_spec b b2 h5
    obtain ⟨hd1, hd2⟩ := isCont_spec b3 h6
    obtain ⟨he1, he2⟩ := isCont_spec b4 h7
    show utf8EncodeChar (Char.ofNat ((b - 0xF0) * 262144 + (b2 - 0x80) * 4096
          + (b3 - 0x80) * 64 + (b4 - 0x80)))
        ++ utf8Encode (utf8Lossy rest4) = b :: b2 :: b3 :: b4 :: rest4
    rw [ih (fun hm => hn (List.mem_cons_of_mem _ hm)),
      encodeChar_four b b2 b3 b4 h4.1 h4.2 hc1 hc2 hcF0 hcF4 hd1 hd2 he1 he2]
    rfl
  | case15 b h1 h2 h3 h4 b2 h5 b3 h6 b4 rest4 h7 ih =>
    intro hn
    exact absurd (by rw [utf8Lossy.eq_def]; simp [h1, h2, h3, h4, h5, h6, h7]) hn
  | case16 b h1 h2 h3 h4 b2 h5 b3 rest3 h6 ih =>
    intro hn
    exact absurd (by rw [utf8Lossy.eq_def]; simp [h1, h2, h3, h4, h5, h6]) hn
  | case17 b h1 h2 h3 h4 b2 rest2 h5 ih =>
    intro hn
    exact absurd (by rw [utf8Lossy.eq_def]; simp [h1, h2, h3, h4, h5]) hn
  | case18 b rest h1 h2 h3 h4 ih =>
    intro hn
    exact absurd (by rw [utf8Lossy.eq_def]; simp [h1, h2, h3, h4]) hn

/-! ### Claim theorem about `decode_url_path_safely` -/

/-- C2: both helpers are total — for every input they return a result —
and `decode_url_path_safely` refines the strict (error-returning)
decoder: wherever strict decoding succeeds they agree, and wherever it
fails the lossy decoder still returns a string, with a U+FFFD
replacement character standing in for the invalid bytes. -/
theorem C2_decode_total_and_lossy : ∀ s : List Char,
    (∃ out, decode_url_path_safely s = out) ∧
    (∃ out, format_url_path_safely s = out) ∧
    (∀ t, utf8DecodeStrict (percentDecode (utf8Encode s)) = some t →
        decode_url_path_safely s = t) ∧
    (utf8DecodeStrict (percentDecode (utf8Encode s)) = none →
        replChar ∈ decode_url_path_safely s) := by
  intro s
  refine ⟨⟨_, rfl⟩, ⟨_, rfl⟩, ?_, ?_⟩
  · intro t ht
    unfold utf8DecodeStrict at ht
    split_ifs at ht with h
    exact Option.some.inj ht
  · intro hnone
    unfold utf8DecodeStrict at hnone
    split_ifs at hnone with h
    by_contra hrep
    exact h (lossy_exact _ hrep)

/-- Witness for C2 at `"%FF"`: strict decoding fails, the lossy decoder
substitutes U+FFFD. -/
theorem C2_decode_total_and_lossy_witness :
    utf8DecodeStrict (percentDecode (utf8Encode (String.toList "%FF"))) = none ∧
    replChar ∈ decode_url_path_safely (String.toList "%FF") :=
  ⟨by decide, (C2_decode_total_and_lossy (String.toList "%FF")).2.2.2 (by decide)⟩

end ServeStatic
